import Mathlib

/-!
Verification of the `go-describe-repo` scanner (`main.go`) against its
specification.  The development shallowly embeds the repository-scanning
core: the `.gitignore` reader, the filtered content-collecting walk, the
unfiltered extension tally, the primary-language selection loop, the
entry-point heuristic, and the JSON serialization of the project context.
-/

namespace DescribeRepo

/-! ## Filesystem model

A snapshot of the directory tree that `filepath.Walk` traverses.  A file
carries its base name, its content and whether `os.ReadFile` would succeed
on it; a directory carries its base name, whether its entries can be listed
(`readDirNames`), and its entries in the order `filepath.Walk` visits them
(lexical order of names, supplied by the snapshot).  `FSList` is the list
of entries of a directory, as a mutual inductive so that all traversals are
plain structural recursions. -/

mutual
inductive FSEntry : Type where
  | file (name content : String) (readable : Bool)
  | dir (name : String) (readable : Bool) (entries : FSList)

inductive FSList : Type where
  | nil
  | cons (e : FSEntry) (es : FSList)
end

/-- `filepath.Rel(root, filePath)` for a child named `name` of the directory
whose own relative path is `parent`; children of the root have `parent = ""`. -/
def relJoin (parent name : String) : String :=
  if parent = "" then name else parent ++ "/" ++ name

/-- `filepath.Ext(name)`: the suffix beginning at the final dot of the base
name (the dot included), or `""` when the name has no dot. -/
def extFrom : List Char → Option (List Char)
  | [] => none
  | c :: cs =>
    match extFrom cs with
    | some e => some e
    | none => if c = '.' then some (c :: cs) else none

def fileExt (name : String) : String :=
  match extFrom name.toList with
  | some e => String.mk e
  | none => ""

/-- `strings.TrimPrefix(s, ".")`: drop one leading dot when present. -/
def trimPrefixDot (s : String) : String :=
  match s.toList with
  | '.' :: rest => String.mk rest
  | _ => s

/-! ## Ignore matcher model (`sabhiram/go-gitignore`)

A compiled ignore object is the list of compiled non-blank, non-comment
lines, each line being a path predicate (the library's glob-to-regexp
translation, abstracted as a function) together with its negation flag.
`MatchesPath` folds over the patterns: a matching non-negated pattern sets
the verdict to `true`, a matching negated pattern resets it to `false`,
later lines taking precedence. -/

def GitIgnore : Type := List ((String → Bool) × Bool)

def matchesPath (g : GitIgnore) (p : String) : Bool :=
  g.foldl (fun acc pr => if pr.1 p then !pr.2 else acc) false

/-- `CompileIgnoreLines`: blank and comment lines (modelled as `none`)
contribute no pattern; every other line contributes its compiled pattern. -/
def compileIgnoreLines (lines : List (Option ((String → Bool) × Bool))) : GitIgnore :=
  lines.filterMap id

/-- The state of the `.gitignore` file at the scanned root: absent,
present but unreadable, or present with the given (pre-compiled) lines.
An empty file is `contents []`. -/
inductive IgnoreFileState : Type where
  | absent
  | unreadable
  | contents (lines : List (Option ((String → Bool) × Bool)))

/-- `readGitignore`: `os.Open` failing with `IsNotExist` yields `(nil, nil)`;
any other open/scan failure is returned as an error; otherwise the scanned
lines are compiled. -/
def readGitignore : IgnoreFileState → Except String (Option GitIgnore)
  | .absent => .ok none
  | .unreadable => .error "open .gitignore: permission denied"
  | .contents lines => .ok (some (compileIgnoreLines lines))

/-- The guard `gitignore != nil && gitignore.MatchesPath(relPath)`. -/
def giMatches : Option GitIgnore → String → Bool
  | none, _ => false
  | some g, p => matchesPath g p

/-! ## The first walk: filtered collection of paths and contents

`filepath.Walk` with the callback of `getRepoDetails` (main.go:68-98).
For each entry, in order: a matched path is skipped (`SkipDir` pruning the
subtree when it is a directory), a directory named `.git` is pruned, a file
is recorded in `fileStructure` and read into `currentCode` (an unreadable
file aborts the walk), a non-pruned directory is recursed into (a directory
whose entries cannot be listed aborts the walk). -/

mutual
def walkEntry (m : String → Bool) (parent : String) :
    FSEntry → Except String (List String × List (String × String))
  | .file name content readable =>
    let rel := relJoin parent name
    if m rel then .ok ([], [])
    else if readable then .ok ([rel], [(rel, content)])
    else .error rel

  | .dir name readable entries =>
    let rel := relJoin parent name
    if m rel then .ok ([], [])
    else if name = ".git" then .ok ([], [])
    else if readable then walkList m rel entries
    else .error rel

def walkList (m : String → Bool) (parent : String) :
    FSList → Except String (List String × List (String × String))
  | .nil => .ok ([], [])
  | .cons e es =>
    match walkEntry m parent e with
    | .error msg => .error msg
    | .ok (l₁, c₁) =>
      match walkList m parent es with
      | .error msg => .error msg
      | .ok (l₂, c₂) => .ok (l₁ ++ l₂, c₁ ++ c₂)
end

/-- The walk started at the root itself: the root is visited first with
relative path `"."`; a matched root or a root directory named `.git` is
pruned, a root file is collected under `"."`. -/
def walkRoot (m : String → Bool) : FSEntry → Except String (List String × List (String × String))
  | .file _ content readable =>
    if m "." then .ok ([], [])
    else if readable then .ok (["."], [(".", content)])
    else .error "."
  | .dir name readable entries =>
    if m "." then .ok ([], [])
    else if name = ".git" then .ok ([], [])
    else if readable then walkList m "" entries
    else .error "."

/-! ## The second walk: the unfiltered extension tally

`filepath.Walk` at main.go:103-110 consults neither the ignore matcher nor
the `.git` check and never returns `SkipDir`: it tallies `filepath.Ext` of
every file of the tree, including files under ignored directories and under
`.git`.  (Directories themselves are not tallied; the model assumes every
directory is listable, which holds in all of the concrete trees below.)
The tally is the in-order list of extensions; the `langs` map of the source
is its multiset of counts. -/

mutual
def tallyEntry : FSEntry → List String
  | .file name _ _ => [fileExt name]
  | .dir _ _ entries => tallyList entries

def tallyList : FSList → List String
  | .nil => []
  | .cons e es => tallyEntry e ++ tallyList es
end

def tallyRoot : FSEntry → List String
  | .file name _ _ => [fileExt name]
  | .dir _ _ entries => tallyList entries

/-! ## Primary-language selection

The loop `for lang, count := range langs` at main.go:112-119 starts from
`("", 0)` and replaces the accumulator only on a strictly greater count.
Go map iteration order is unspecified, so the enumeration order of the
`langs` map is an explicit parameter `iter`; `IsMapEnum iter exts`
states that `iter` is a valid enumeration of the extension-count map built
from the tally `exts`: keys are distinct, each key carries its exact
occurrence count, and every tallied extension appears as a key. -/

def pickPrimary (iter : List (String × Nat)) : String × Nat :=
  iter.foldl (fun acc p => if p.2 > acc.2 then p else acc) ("", 0)

def primaryLangOf (iter : List (String × Nat)) : String :=
  (pickPrimary iter).1

def IsMapEnum (iter : List (String × Nat)) (exts : List String) : Prop :=
  (iter.map Prod.fst).Nodup ∧
  (∀ p ∈ iter, p.1 ∈ exts ∧ p.2 = exts.count p.1) ∧
  (∀ e ∈ exts, e ∈ iter.map Prod.fst)

instance (iter : List (String × Nat)) (exts : List String) :
    Decidable (IsMapEnum iter exts) := by
  unfold IsMapEnum
  infer_instance

/-! ## `getRepoDetails` -/

structure ScanResult where
  primaryLang : String
  fileStructure : List String
  entryPoint : String
  currentCode : List (String × String)
deriving DecidableEq

/-- `getRepoDetails` (main.go:60-124): read the ignore file (any read error
is returned, with no partial result), run the filtered walk (any traversal
or file-read error is returned, with no partial result), pick the primary
language from the `langs` enumeration `iter`, and derive the entry point as
`"main." + strings.TrimPrefix(primaryLang, ".")`. -/
def getRepoDetails (st : IgnoreFileState) (root : FSEntry) (iter : List (String × Nat)) :
    Except String ScanResult :=
  match readGitignore st with
  | .error e => .error e
  | .ok gi =>
    match walkRoot (giMatches gi) root with
    | .error e => .error e
    | .ok (fs, cc) =>
      let primaryLang := primaryLangOf iter
      .ok ⟨primaryLang, fs, "main." ++ trimPrefixDot primaryLang, cc⟩

/-! ## All files of the tree, flagged by pruned ancestry

`flaggedRoot m root` lists every file of the tree with its relative path
and a flag that is `true` exactly when the file lies strictly below a
directory that the matcher matches or that is named `.git` — i.e. below a
directory the first walk prunes.  It is the reference inventory that the
invariant claims are stated against. -/

mutual
def flaggedEntry (m : String → Bool) (pruned : Bool) (parent : String) :
    FSEntry → List (String × Bool)
  | .file name _ _ => [(relJoin parent name, pruned)]
  | .dir name _ entries =>
    flaggedList m (pruned || m (relJoin parent name) || decide (name = ".git"))
      (relJoin parent name) entries

def flaggedList (m : String → Bool) (pruned : Bool) (parent : String) :
    FSList → List (String × Bool)
  | .nil => []
  | .cons e es => flaggedEntry m pruned parent e ++ flaggedList m pruned parent es
end

def flaggedRoot (m : String → Bool) : FSEntry → List (String × Bool)
  | .file _ _ _ => [(".", false)]
  | .dir name _ entries => flaggedList m (m "." || decide (name = ".git")) "" entries

/-! ## Unreadable entries reachable by the first walk

`badRoot m root = true` exactly when the pruned traversal reaches a file
that cannot be read or a directory that cannot be listed; entries below a
pruned directory are never reached and do not count. -/

mutual
def badEntry (m : String → Bool) (parent : String) : FSEntry → Bool
  | .file name _ readable =>
    if m (relJoin parent name) then false else !readable
  | .dir name readable entries =>
    let rel := relJoin parent name
    if m rel then false
    else if name = ".git" then false
    else if readable then badList m rel entries
    else true

def badList (m : String → Bool) (parent : String) : FSList → Bool
  | .nil => false
  | .cons e es => badEntry m parent e || badList m parent es
end

def badRoot (m : String → Bool) : FSEntry → Bool
  | .file _ _ readable => if m "." then false else !readable
  | .dir name readable entries =>
    if m "." then false
    else if name = ".git" then false
    else if readable then badList m "" entries
    else true

/-! ## Serialization (`json.MarshalIndent(projectContext, "", "  ")`)

The persisted value and its encoding (main.go:19-28, 203-206).  Go's
`encoding/json` emits struct fields in declaration order, indents nested
values by one more copy of the two-space indent string, escapes strings
with the default HTML-escaping encoder, sorts map keys bytewise, renders a
nil slice as `null` and an empty map as `{}`.  `currentCode` is a Go map,
so the model carries its entries as an association list in arbitrary
order; the encoder sorts it. -/

structure Context where
  projectName : String
  projectDescription : String
  fileStructure : List String

structure ProjectContext where
  context : Context
  currentCode : List (String × String)

def hexDigit (n : Nat) : Char :=
  if n < 10 then Char.ofNat (48 + n) else Char.ofNat (87 + n)

def escapeChar (c : Char) : String :=
  if c = '"' then "\\\""
  else if c = '\\' then "\\\\"
  else if c = '\n' then "\\n"
  else if c = '\r' then "\\r"
  else if c = '\t' then "\\t"
  else if c = '<' then "\\u003c"
  else if c = '>' then "\\u003e"
  else if c = '&' then "\\u0026"
  else if c.toNat < 32 then
    "\\u00" ++ String.mk [hexDigit (c.toNat / 16), hexDigit (c.toNat % 16)]
  else if c.toNat = 8232 then "\\u2028"
  else if c.toNat = 8233 then "\\u2029"
  else String.mk [c]

def quoteJSON (s : String) : String :=
  "\"" ++ String.join (s.toList.map escapeChar) ++ "\""

/-- Bytewise string order used by `encoding/json` on map keys (UTF-8 byte
order coincides with code-point order, compared here code point by code
point). -/
def charsLE : List Char → List Char → Bool
  | [], _ => true
  | _ :: _, [] => false
  | a :: as, b :: bs =>
    if a.toNat < b.toNat then true
    else if b.toNat < a.toNat then false
    else charsLE as bs

def strLE (a b : String) : Bool := charsLE a.toList b.toList

def pairLE (a b : String × String) : Prop := strLE a.1 b.1 = true

instance : DecidableRel pairLE := fun _ _ => instDecidableEqBool _ _

def sortByKey (l : List (String × String)) : List (String × String) :=
  List.insertionSort pairLE l

def marshalStringArray (ind : String) : List String → String
  | [] => "null"
  | l => "[\n" ++ String.intercalate ",\n" (l.map (fun s => ind ++ "  " ++ quoteJSON s)) ++
      "\n" ++ ind ++ "]"

def marshalCode (ind : String) (entries : List (String × String)) : String :=
  match sortByKey entries with
  | [] => "\x7b\x7d"
  | l => "\x7b\n" ++
      String.intercalate ",\n"
        (l.map (fun kv => ind ++ "  " ++ quoteJSON kv.1 ++ ": " ++ quoteJSON kv.2)) ++
      "\n" ++ ind ++ "\x7d"

def marshalProjectContext (pc : ProjectContext) : String :=
  "\x7b\n" ++
  "  \"context\": \x7b\n" ++
  "    \"project_name\": " ++ quoteJSON pc.context.projectName ++ ",\n" ++
  "    \"project_description\": " ++ quoteJSON pc.context.projectDescription ++ ",\n" ++
  "    \"file_structure\": " ++ marshalStringArray "    " pc.context.fileStructure ++ "\n" ++
  "  \x7d,\n" ++
  "  \"current_code\": " ++ marshalCode "  " pc.currentCode ++ "\n" ++
  "\x7d"

/-! ## Lemmas about the first walk -/

/-- In an association list with distinct keys, a key determines its value. -/
theorem nodup_keys_eq {α : Type u} {β : Type v} {l : List (α × β)}
    (hnd : (l.map Prod.fst).Nodup) {a : α} {b₁ b₂ : β}
    (h₁ : (a, b₁) ∈ l) (h₂ : (a, b₂) ∈ l) : b₁ = b₂ := by
  induction l with
  | nil => cases h₁
  | cons x xs ih =>
    obtain ⟨a', b'⟩ := x
    rw [List.map_cons, List.nodup_cons] at hnd
    rcases List.mem_cons.mp h₁ with h | h <;> rcases List.mem_cons.mp h₂ with h' | h'
    · injection h with ha hb
      injection h' with ha' hb'
      rw [hb, hb']
    · injection h with ha hb
      subst ha
      exact absurd (List.mem_map_of_mem Prod.fst h') hnd.1
    · injection h' with ha hb
      subst ha
      exact absurd (List.mem_map_of_mem Prod.fst h) hnd.1
    · exact ih hnd.2 h h'

mutual
/-- A successful walk records content under exactly the paths it lists. -/
theorem walkEntry_keys (m : String → Bool) (parent : String) (e : FSEntry)
    {l : List String} {c : List (String × String)}
    (h : walkEntry m parent e = .ok (l, c)) : c.map Prod.fst = l := by
  cases e with
  | file name content readable =>
    simp only [walkEntry] at h
    split at h
    · cases h; rfl
    · split at h
      · cases h; rfl
      · cases h
  | dir name readable entries =>
    simp only [walkEntry] at h
    split at h
    · cases h; rfl
    · split at h
      · cases h; rfl
      · split at h
        · exact walkList_keys m _ entries h
        · cases h

theorem walkList_keys (m : String → Bool) (parent : String) (es : FSList)
    {l : List String} {c : List (String × String)}
    (h : walkList m parent es = .ok (l, c)) : c.map Prod.fst = l := by
  cases es with
  | nil => simp only [walkList] at h; cases h; rfl
  | cons e es' =>
    simp only [walkList] at h
    cases he : walkEntry m parent e with
    | error msg => rw [he] at h; cases h
    | ok r₁ =>
      rw [he] at h
      obtain ⟨l₁, c₁⟩ := r₁
      cases hes : walkList m parent es' with
      | error msg => rw [hes] at h; cases h
      | ok r₂ =>
        rw [hes] at h
        obtain ⟨l₂, c₂⟩ := r₂
        cases h
        rw [List.map_append, walkEntry_keys m parent e he, walkList_keys m parent es' hes]
end

theorem walkRoot_keys (m : String → Bool) (root : FSEntry)
    {l : List String} {c : List (String × String)}
    (h : walkRoot m root = .ok (l, c)) : c.map Prod.fst = l := by
  cases root with
  | file name content readable =>
    simp only [walkRoot] at h
    split at h
    · cases h; rfl
    · split at h
      · cases h; rfl
      · cases h
  | dir name readable entries =>
    simp only [walkRoot] at h
    split at h
    · cases h; rfl
    · split at h
      · cases h; rfl
      · split at h
        · exact walkList_keys m "" entries h
        · cases h

mutual
/-- Every path listed by a successful walk is one of the tree's files and
lies below no pruned directory (its flag in the reference inventory is
`false`). -/
theorem walkEntry_flagged (m : String → Bool) (parent : String) (e : FSEntry)
    {l : List String} {c : List (String × String)}
    (h : walkEntry m parent e = .ok (l, c)) :
    ∀ q ∈ l, (q, false) ∈ flaggedEntry m false parent e := by
  cases e with
  | file name content readable =>
    simp only [walkEntry] at h
    split at h
    · cases h
      intro q hq
      cases hq
    · split at h
      · cases h
        intro q hq
        rcases List.mem_singleton.mp hq with rfl
        simp [flaggedEntry]
      · cases h
  | dir name readable entries =>
    simp only [walkEntry] at h
    split at h
    · cases h
      intro q hq
      cases hq
    · split at h
      · cases h
        intro q hq
        cases hq
      · split at h
        · intro q hq
          have hm : m (relJoin parent name) = false := by
            rename_i hcond _ _
            exact Bool.of_not_eq_true hcond
          have hn : ¬(name = ".git") := by assumption
          simp only [flaggedEntry, hm, decide_eq_false hn, Bool.or_false, Bool.false_or]
          exact walkList_flagged m (relJoin parent name) entries h q hq
        · cases h

theorem walkList_flagged (m : String → Bool) (parent : String) (es : FSList)
    {l : List String} {c : List (String × String)}
    (h : walkList m parent es = .ok (l, c)) :
    ∀ q ∈ l, (q, false) ∈ flaggedList m false parent es := by
  cases es with
  | nil =>
    simp only [walkList] at h
    cases h
    intro q hq
    cases hq
  | cons e es' =>
    simp only [walkList] at h
    cases he : walkEntry m parent e with
    | error msg => rw [he] at h; cases h
    | ok r₁ =>
      rw [he] at h
      obtain ⟨l₁, c₁⟩ := r₁
      cases hes : walkList m parent es' with
      | error msg => rw [hes] at h; cases h
      | ok r₂ =>
        rw [hes] at h
        obtain ⟨l₂, c₂⟩ := r₂
        cases h
        intro q hq
        simp only [flaggedList, List.mem_append]
        rcases List.mem_append.mp hq with hq | hq
        · exact Or.inl (walkEntry_flagged m parent e he q hq)
        · exact Or.inr (walkList_flagged m parent es' hes q hq)
end

theorem walkRoot_flagged (m : String → Bool) (root : FSEntry)
    {l : List String} {c : List (String × String)}
    (h : walkRoot m root = .ok (l, c)) :
    ∀ q ∈ l, (q, false) ∈ flaggedRoot m root := by
  cases root with
  | file name content readable =>
    simp only [walkRoot] at h
    split at h
    · cases h
      intro q hq
      cases hq
    · split at h
      · cases h
        intro q hq
        rcases List.mem_singleton.mp hq with rfl
        simp [flaggedRoot]
      · cases h
  | dir name readable entries =>
    simp only [walkRoot] at h
    split at h
    · cases h
      intro q hq
      cases hq
    · split at h
      · cases h
        intro q hq
        cases hq
      · split at h
        · intro q hq
          have hm : m "." = false := by
            rename_i hcond _ _
            exact Bool.of_not_eq_true hcond
          have hn : ¬(name = ".git") := by assumption
          simp only [flaggedRoot, hm, decide_eq_false hn, Bool.or_false, Bool.false_or]
          exact walkList_flagged m "" entries h q hq
        · cases h

mutual
/-- A successful walk reaches no unreadable entry. -/
theorem walkEntry_ok_bad (m : String → Bool) (parent : String) (e : FSEntry)
    {r : List String × List (String × String)}
    (h : walkEntry m parent e = .ok r) : badEntry m parent e = false := by
  cases e with
  | file name content readable =>
    simp only [walkEntry] at h
    simp only [badEntry]
    split at h
    · simp_all
    · split at h
      · simp_all
      · cases h
  | dir name readable entries =>
    simp only [walkEntry] at h
    simp only [badEntry]
    split at h
    · simp_all
    · split at h
      · simp_all
      · split at h
        · rename_i hm hn hr
          rw [if_neg hm, if_neg hn, if_pos hr]
          exact walkList_ok_bad m _ entries h
        · cases h

theorem walkList_ok_bad (m : String → Bool) (parent : String) (es : FSList)
    {r : List String × List (String × String)}
    (h : walkList m parent es = .ok r) : badList m parent es = false := by
  cases es with
  | nil => simp [badList]
  | cons e es' =>
    simp only [walkList] at h
    cases he : walkEntry m parent e with
    | error msg => rw [he] at h; cases h
    | ok r₁ =>
      rw [he] at h
      obtain ⟨l₁, c₁⟩ := r₁
      cases hes : walkList m parent es' with
      | error msg => rw [hes] at h; cases h
      | ok r₂ =>
        simp only [badList, Bool.or_eq_false_iff]
        exact ⟨walkEntry_ok_bad m parent e he, walkList_ok_bad m parent es' hes⟩
end

theorem walkRoot_ok_bad (m : String → Bool) (root : FSEntry)
    {r : List String × List (String × String)}
    (h : walkRoot m root = .ok r) : badRoot m root = false := by
  cases root with
  | file name content readable =>
    simp only [walkRoot] at h
    simp only [badRoot]
    split at h
    · simp_all
    · split at h
      · simp_all
      · cases h
  | dir name readable entries =>
    simp only [walkRoot] at h
    simp only [badRoot]
    split at h
    · simp_all
    · split at h
      · simp_all
      · split at h
        · rename_i hm hn hr
          rw [if_neg hm, if_neg hn, if_pos hr]
          exact walkList_ok_bad m "" entries h
        · cases h

mutual
/-- Conversely, when every entry the pruned traversal reaches is readable
the walk succeeds — in particular unreadable entries below pruned
directories never cause a failure, because the walk never descends into a
pruned directory. -/
theorem badEntry_walk_ok (m : String → Bool) (parent : String) (e : FSEntry)
    (h : badEntry m parent e = false) :
    ∃ r, walkEntry m parent e = .ok r := by
  cases e with
  | file name content readable =>
    simp only [badEntry] at h
    simp only [walkEntry]
    split at h
    · rename_i hm
      rw [if_pos hm]
      exact ⟨_, rfl⟩
    · rename_i hm
      rw [if_neg hm, if_pos (by simpa using h)]
      exact ⟨_, rfl⟩
  | dir name readable entries =>
    simp only [badEntry] at h
    simp only [walkEntry]
    split at h
    · rename_i hm
      rw [if_pos hm]
      exact ⟨_, rfl⟩
    · rename_i hm
      rw [if_neg hm]
      split at h
      · rename_i hn
        rw [if_pos hn]
        exact ⟨_, rfl⟩
      · rename_i hn
        rw [if_neg hn]
        split at h
        · rename_i hr
          rw [if_pos hr]
          exact badList_walk_ok m _ entries h
        · cases h

theorem badList_walk_ok (m : String → Bool) (parent : String) (es : FSList)
    (h : badList m parent es = false) :
    ∃ r, walkList m parent es = .ok r := by
  cases es with
  | nil => exact ⟨_, rfl⟩
  | cons e es' =>
    simp only [badList, Bool.or_eq_false_iff] at h
    obtain ⟨r₁, h₁⟩ := badEntry_walk_ok m parent e h.1
    obtain ⟨r₂, h₂⟩ := badList_walk_ok m parent es' h.2
    refine ⟨(r₁.1 ++ r₂.1, r₁.2 ++ r₂.2), ?_⟩
    simp only [walkList, h₁, h₂]
end

theorem badRoot_walk_ok (m : String → Bool) (root : FSEntry)
    (h : badRoot m root = false) :
    ∃ r, walkRoot m root = .ok r := by
  cases root with
  | file name content readable =>
    simp only [badRoot] at h
    simp only [walkRoot]
    split at h
    · rename_i hm
      rw [if_pos hm]
      exact ⟨_, rfl⟩
    · rename_i hm
      rw [if_neg hm, if_pos (by simpa using h)]
      exact ⟨_, rfl⟩
  | dir name readable entries =>
    simp only [badRoot] at h
    simp only [walkRoot]
    split at h
    · rename_i hm
      rw [if_pos hm]
      exact ⟨_, rfl⟩
    · rename_i hm
      rw [if_neg hm]
      split at h
      · rename_i hn
        rw [if_pos hn]
        exact ⟨_, rfl⟩
      · rename_i hn
        rw [if_neg hn]
        split at h
        · rename_i hr
          rw [if_pos hr]
          exact badList_walk_ok m "" entries h
        · cases h

/-- Inversion of a successful `getRepoDetails`. -/
theorem getRepoDetails_ok (st : IgnoreFileState) (root : FSEntry)
    (iter : List (String × Nat)) (r : ScanResult)
    (h : getRepoDetails st root iter = .ok r) :
    ∃ gi, readGitignore st = .ok gi ∧
      walkRoot (giMatches gi) root = .ok (r.fileStructure, r.currentCode) ∧
      r.primaryLang = primaryLangOf iter ∧
      r.entryPoint = "main." ++ trimPrefixDot (primaryLangOf iter) := by
  unfold getRepoDetails at h
  cases hg : readGitignore st with
  | error e => rw [hg] at h; cases h
  | ok gi =>
    rw [hg] at h
    dsimp only at h
    cases hw : walkRoot (giMatches gi) root with
    | error e => rw [hw] at h; cases h
    | ok fc =>
      rw [hw] at h
      obtain ⟨fs, cc⟩ := fc
      dsimp only at h
      cases h
      exact ⟨gi, rfl, hw, rfl, rfl⟩

/-! ## Trees without files -/

mutual
theorem tallyEntry_nil_flagged (m : String → Bool) (pruned : Bool) (parent : String)
    (e : FSEntry) (h : tallyEntry e = []) :
    flaggedEntry m pruned parent e = [] := by
  cases e with
  | file name content readable => simp [tallyEntry] at h
  | dir name readable entries =>
    simp only [tallyEntry] at h
    exact tallyList_nil_flagged m _ _ entries h

theorem tallyList_nil_flagged (m : String → Bool) (pruned : Bool) (parent : String)
    (es : FSList) (h : tallyList es = []) :
    flaggedList m pruned parent es = [] := by
  cases es with
  | nil => rfl
  | cons e es' =>
    simp only [tallyList, List.append_eq_nil] at h
    simp only [flaggedList, tallyEntry_nil_flagged m pruned parent e h.1,
      tallyList_nil_flagged m pruned parent es' h.2, List.append_nil]
end

theorem tallyRoot_nil_flagged (m : String → Bool) (root : FSEntry)
    (h : tallyRoot root = []) : flaggedRoot m root = [] := by
  cases root with
  | file name content readable => simp [tallyRoot] at h
  | dir name readable entries =>
    simp only [tallyRoot] at h
    exact tallyList_nil_flagged m _ "" entries h

/-! ## Lemmas about the selection loop -/

theorem pickPrimary_foldl_ge (iter : List (String × Nat)) (acc : String × Nat) :
    acc.2 ≤ (iter.foldl (fun acc p => if p.2 > acc.2 then p else acc) acc).2 := by
  induction iter generalizing acc with
  | nil => exact le_refl _
  | cons p ps ih =>
    simp only [List.foldl_cons]
    refine le_trans ?_ (ih (if p.2 > acc.2 then p else acc))
    split
    · omega
    · exact le_refl _

theorem pickPrimary_foldl_mem_le (iter : List (String × Nat)) (acc : String × Nat) :
    ∀ q ∈ iter, q.2 ≤ (iter.foldl (fun acc p => if p.2 > acc.2 then p else acc) acc).2 := by
  induction iter generalizing acc with
  | nil => intro q hq; cases hq
  | cons p ps ih =>
    intro q hq
    simp only [List.foldl_cons]
    rcases List.mem_cons.mp hq with rfl | hq
    · refine le_trans ?_ (pickPrimary_foldl_ge ps (if q.2 > acc.2 then q else acc))
      split
      · exact le_refl _
      · omega
    · exact ih (if p.2 > acc.2 then p else acc) q hq

theorem pickPrimary_foldl_mem_or (iter : List (String × Nat)) (acc : String × Nat) :
    iter.foldl (fun acc p => if p.2 > acc.2 then p else acc) acc = acc ∨
      iter.foldl (fun acc p => if p.2 > acc.2 then p else acc) acc ∈ iter := by
  induction iter generalizing acc with
  | nil => exact Or.inl rfl
  | cons p ps ih =>
    simp only [List.foldl_cons]
    rcases ih (if p.2 > acc.2 then p else acc) with h | h
    · rw [h]
      split
      · exact Or.inr (List.mem_cons_self _ _)
      · exact Or.inl rfl
    · exact Or.inr (List.mem_cons_of_mem _ h)

/-- In a valid enumeration, every tallied extension occurs paired with its
count. -/
theorem isMapEnum_mem (iter : List (String × Nat)) (exts : List String)
    (h : IsMapEnum iter exts) {e : String} (he : e ∈ exts) :
    (e, exts.count e) ∈ iter := by
  obtain ⟨-, h₂, h₃⟩ := h
  obtain ⟨p, hp, hpe⟩ := List.mem_map.mp (h₃ e he)
  obtain ⟨-, hcount⟩ := h₂ p hp
  have : p = (e, exts.count e) := by
    obtain ⟨p₁, p₂⟩ := p
    simp only at hpe hcount
    rw [hpe] at hcount ⊢
    rw [hcount]
  rwa [this] at hp

/-- The selection loop returns a key of the map achieving the maximum
count, whenever the tally is non-empty. -/
theorem primaryLang_spec (exts : List String) (iter : List (String × Nat))
    (h : IsMapEnum iter exts) (hne : exts ≠ []) :
    primaryLangOf iter ∈ exts ∧
      ∀ e ∈ exts, exts.count e ≤ exts.count (primaryLangOf iter) := by
  obtain ⟨e₀, he₀⟩ := List.exists_mem_of_ne_nil exts hne
  have hmem₀ : (e₀, exts.count e₀) ∈ iter := isMapEnum_mem iter exts h he₀
  have hpos : 0 < exts.count e₀ := List.count_pos_iff.mpr he₀
  have hge := pickPrimary_foldl_mem_le iter ("", 0) _ hmem₀
  have hpick : pickPrimary iter ∈ iter := by
    rcases pickPrimary_foldl_mem_or iter ("", 0) with hc | hc
    · exfalso
      have : (pickPrimary iter).2 = 0 := by
        simp only [pickPrimary, hc]
      simp only [pickPrimary] at this
      omega
    · exact hc
  obtain ⟨hin, hcnt⟩ := h.2.1 _ hpick
  constructor
  · exact hin
  · intro e he
    have := pickPrimary_foldl_mem_le iter ("", 0) _ (isMapEnum_mem iter exts h he)
    simp only [primaryLangOf]
    rw [← hcnt]
    exact this

/-- When one extension strictly dominates every other, the loop returns it
regardless of the enumeration order. -/
theorem primaryLang_unique_max (exts : List String) (iter : List (String × Nat))
    (h : IsMapEnum iter exts) (e : String) (he : e ∈ exts)
    (hmax : ∀ e' ∈ exts, e' ≠ e → exts.count e' < exts.count e) :
    primaryLangOf iter = e := by
  obtain ⟨hin, hle⟩ := primaryLang_spec exts iter h (List.ne_nil_of_mem he)
  by_contra hne
  exact absurd (hle e he) (by have := hmax _ hin hne; omega)

/-! ## Lemmas about the key order and the serialization -/

theorem char_toNat_injective : Function.Injective Char.toNat :=
  StrictMono.injective fun ⦃_ _⦄ h => h

theorem charsLE_total : ∀ a b : List Char, charsLE a b = true ∨ charsLE b a = true := by
  intro a
  induction a with
  | nil => intro b; exact Or.inl rfl
  | cons x xs ih =>
    intro b
    cases b with
    | nil => exact Or.inr rfl
    | cons y ys =>
      simp only [charsLE]
      rcases Nat.lt_trichotomy x.toNat y.toNat with h | h | h
      · left
        rw [if_pos h]
      · rw [if_neg (by omega), if_neg (by omega), if_neg (by omega), if_neg (by omega)]
        exact ih ys
      · right
        rw [if_pos h]

theorem charsLE_trans :
    ∀ a b c : List Char, charsLE a b = true → charsLE b c = true → charsLE a c = true := by
  intro a
  induction a with
  | nil => intro b c _ _; rfl
  | cons x xs ih =>
    intro b c hab hbc
    cases b with
    | nil => cases hab
    | cons y ys =>
      cases c with
      | nil => cases hbc
      | cons z zs =>
        simp only [charsLE] at hab hbc ⊢
        by_cases h₁ : x.toNat < y.toNat
        · by_cases h₂ : y.toNat < z.toNat
          · rw [if_pos (by omega)]
          · by_cases h₂' : z.toNat < y.toNat
            · rw [if_neg h₂, if_pos h₂'] at hbc
              cases hbc
            · rw [if_pos (by omega)]
        · by_cases h₁' : y.toNat < x.toNat
          · rw [if_neg h₁, if_pos h₁'] at hab
            cases hab
          · rw [if_neg h₁, if_neg h₁'] at hab
            by_cases h₂ : y.toNat < z.toNat
            · rw [if_pos (by omega)]
            · by_cases h₂' : z.toNat < y.toNat
              · rw [if_neg h₂, if_pos h₂'] at hbc
                cases hbc
              · rw [if_neg h₂, if_neg h₂'] at hbc
                rw [if_neg (by omega), if_neg (by omega)]
                exact ih ys zs hab hbc

theorem charsLE_antisymm :
    ∀ a b : List Char, charsLE a b = true → charsLE b a = true → a = b := by
  intro a
  induction a with
  | nil =>
    intro b hab hba
    cases b with
    | nil => rfl
    | cons y ys => cases hba
  | cons x xs ih =>
    intro b hab hba
    cases b with
    | nil => cases hab
    | cons y ys =>
      simp only [charsLE] at hab hba
      by_cases h₁ : x.toNat < y.toNat
      · rw [if_neg (by omega), if_pos h₁] at hba
        cases hba
      · by_cases h₁' : y.toNat < x.toNat
        · rw [if_neg h₁, if_pos h₁'] at hab
          cases hab
        · rw [if_neg h₁, if_neg h₁'] at hab
          rw [if_neg h₁', if_neg h₁] at hba
          rw [char_toNat_injective (by omega : x.toNat = y.toNat), ih ys hab hba]

theorem str_toList_injective : Function.Injective String.toList := by
  intro a b h
  cases a
  cases b
  exact congrArg String.mk (by simpa [String.toList] using h)

instance : IsTotal (String × String) pairLE :=
  ⟨fun a b => charsLE_total a.1.toList b.1.toList⟩

instance : IsTrans (String × String) pairLE :=
  ⟨fun a b c => charsLE_trans a.1.toList b.1.toList c.1.toList⟩

/-- Two sorted association lists that are permutations of one another and
have distinct keys are equal. -/
theorem sorted_perm_nodupkeys_eq :
    ∀ {l₁ l₂ : List (String × String)}, l₁.Perm l₂ →
      (l₁.map Prod.fst).Nodup → l₁.Sorted pairLE → l₂.Sorted pairLE → l₁ = l₂ := by
  intro l₁
  induction l₁ with
  | nil =>
    intro l₂ hp _ _ _
    exact hp.nil_eq
  | cons a t₁ ih =>
    intro l₂ hp hnd hs₁ hs₂
    cases l₂ with
    | nil => exact absurd hp.symm.nil_eq (by simp)
    | cons b t₂ =>
      rw [List.map_cons, List.nodup_cons] at hnd
      rw [List.sorted_cons] at hs₁ hs₂
      by_cases hab : a = b
      · subst hab
        rw [ih hp.cons_inv hnd.2 hs₁.2 hs₂.2]
      · exfalso
        have hat₂ : a ∈ t₂ := by
          rcases List.mem_cons.mp (hp.subset (List.mem_cons_self a t₁)) with h | h
          · exact absurd h hab
          · exact h
        have hbt₁ : b ∈ t₁ := by
          rcases List.mem_cons.mp (hp.symm.subset (List.mem_cons_self b t₂)) with h | h
          · exact absurd h.symm hab
          · exact h
        have h₁ : pairLE a b := hs₁.1 b hbt₁
        have h₂ : pairLE b a := hs₂.1 a hat₂
        have hkey : a.1 = b.1 :=
          str_toList_injective (charsLE_antisymm a.1.toList b.1.toList h₁ h₂)
        exact hnd.1 (hkey ▸ List.mem_map_of_mem Prod.fst hbt₁)

/-- Sorting by key is invariant under permutation of an association list
with distinct keys. -/
theorem sortByKey_perm_eq {l₁ l₂ : List (String × String)} (hp : l₁.Perm l₂)
    (hnd : (l₁.map Prod.fst).Nodup) : sortByKey l₁ = sortByKey l₂ := by
  refine sorted_perm_nodupkeys_eq
    ((List.perm_insertionSort pairLE l₁).trans
      (hp.trans (List.perm_insertionSort pairLE l₂).symm)) ?_
    (List.sorted_insertionSort pairLE l₁) (List.sorted_insertionSort pairLE l₂)
  exact ((List.perm_insertionSort pairLE l₁).map Prod.fst).symm.nodup_iff.mp hnd

/-! ## Claim C1 -/

/-- **C1.**  For every scan, no path under a directory matched by the
ignore rule set, and no path under the version-control metadata directory
(`.git`), appears in `fileStructure` or in the `currentCode` mapping: every
file of the tree flagged as lying below a pruned directory is absent from
both.  (That such directories are pruned rather than post-filtered is the
content of `badEntry_walk_ok`: the walk succeeds — and hence never reads —
whatever lies below a matched directory.)  The `hnd` hypothesis states that
the tree's file paths are unambiguous, as on a real filesystem. -/
theorem c1_no_pruned_paths (st : IgnoreFileState) (gi : Option GitIgnore)
    (root : FSEntry) (iter : List (String × Nat)) (r : ScanResult)
    (hgi : readGitignore st = .ok gi)
    (hok : getRepoDetails st root iter = .ok r)
    (hnd : ((flaggedRoot (giMatches gi) root).map Prod.fst).Nodup)
    (p : String) (hp : (p, true) ∈ flaggedRoot (giMatches gi) root) :
    p ∉ r.fileStructure ∧ ∀ v, (p, v) ∉ r.currentCode := by
  obtain ⟨gi', hgi', hw, -, -⟩ := getRepoDetails_ok st root iter r hok
  rw [hgi] at hgi'
  cases hgi'
  have hfs : p ∉ r.fileStructure := by
    intro hmem
    have hfalse := walkRoot_flagged _ root hw p hmem
    cases nodup_keys_eq hnd hp hfalse
  refine ⟨hfs, fun v hv => ?_⟩
  have hkeys := walkRoot_keys _ root hw
  exact hfs (hkeys ▸ List.mem_map_of_mem Prod.fst hv)

def wt1Ignore : IgnoreFileState := .contents [some (fun p => p == "docs", false)]

def wt1GI : Option GitIgnore := some [(fun p => p == "docs", false)]

def wt1Tree : FSEntry :=
  .dir "repo" true (.cons (.file "a.go" "package main" true)
    (.cons (.dir "docs" true (.cons (.file "x.md" "hello" true) .nil)) .nil))

def wt1Res : ScanResult := ⟨"", ["a.go"], "main.", [("a.go", "package main")]⟩

theorem c1_no_pruned_paths_witness :
    "docs/x.md" ∉ wt1Res.fileStructure ∧ ∀ v, ("docs/x.md", v) ∉ wt1Res.currentCode :=
  c1_no_pruned_paths wt1Ignore wt1GI wt1Tree [] wt1Res rfl rfl (by decide)
    "docs/x.md" (by decide)

/-! ## Claim C2 -/

/-- **C2.**  For every successful scan, the set of relative paths in
`fileStructure` equals the set of keys of the `currentCode` mapping. -/
theorem c2_keys_eq_fileStructure (st : IgnoreFileState) (root : FSEntry)
    (iter : List (String × Nat)) (r : ScanResult)
    (hok : getRepoDetails st root iter = .ok r) :
    ∀ p, p ∈ r.fileStructure ↔ p ∈ r.currentCode.map Prod.fst := by
  obtain ⟨gi, -, hw, -, -⟩ := getRepoDetails_ok st root iter r hok
  intro p
  rw [walkRoot_keys _ root hw]

def wt2Tree : FSEntry :=
  .dir "repo" true (.cons (.file "a.go" "package main" true)
    (.cons (.dir "sub" true (.cons (.file "b.go" "package sub" true) .nil)) .nil))

def wt2Res : ScanResult :=
  ⟨"", ["a.go", "sub/b.go"], "main.", [("a.go", "package main"), ("sub/b.go", "package sub")]⟩

theorem c2_keys_eq_fileStructure_witness :
    ("sub/b.go" ∈ wt2Res.fileStructure ↔ "sub/b.go" ∈ wt2Res.currentCode.map Prod.fst) ∧
    ("a.md" ∈ wt2Res.fileStructure ↔ "a.md" ∈ wt2Res.currentCode.map Prod.fst) :=
  ⟨c2_keys_eq_fileStructure .absent wt2Tree [] wt2Res rfl "sub/b.go",
   c2_keys_eq_fileStructure .absent wt2Tree [] wt2Res rfl "a.md"⟩

/-! ## Claim C5 -/

/-- **C5.**  If any entry visited by the filtered traversal is unreadable —
a file `os.ReadFile` fails on, or a directory whose entries cannot be
listed — the whole scan aborts with an error: `getRepoDetails` returns
`Except.error`, which carries no `fileStructure`, no `currentCode` and no
primary language (the source returns `("", nil, "", nil, err)`). -/
theorem c5_unreadable_aborts (st : IgnoreFileState) (gi : Option GitIgnore)
    (root : FSEntry) (iter : List (String × Nat))
    (hgi : readGitignore st = .ok gi)
    (hbad : badRoot (giMatches gi) root = true) :
    ∃ msg, getRepoDetails st root iter = .error msg := by
  cases hres : getRepoDetails st root iter with
  | error msg => exact ⟨msg, rfl⟩
  | ok r =>
    obtain ⟨gi', hgi', hw, -, -⟩ := getRepoDetails_ok st root iter r hres
    rw [hgi] at hgi'
    cases hgi'
    rw [walkRoot_ok_bad _ root hw] at hbad
    cases hbad

def wt5Tree : FSEntry := .dir "repo" true (.cons (.file "broken.go" "" false) .nil)

theorem c5_unreadable_aborts_witness :
    badRoot (giMatches none) wt5Tree = true ∧
    ∃ msg, getRepoDetails .absent wt5Tree [] = .error msg :=
  ⟨by decide, c5_unreadable_aborts .absent none wt5Tree [] rfl (by decide)⟩

/-! ## Claim C7 -/

/-- **C7.**  For every root tree (and every enumeration of the language
map), a scan with no ignore-spec file produces results identical to a scan
with a present-but-empty ignore-spec file; and the absent file is not an
error (`readGitignore` yields `ok none`). -/
theorem c7_absent_eq_empty (root : FSEntry) (iter : List (String × Nat)) :
    getRepoDetails (.contents []) root iter = getRepoDetails .absent root iter ∧
    readGitignore .absent = .ok none := by
  refine ⟨?_, rfl⟩
  have hm : giMatches (some (compileIgnoreLines [])) = giMatches none := by
    funext p
    rfl
  unfold getRepoDetails readGitignore
  dsimp only
  rw [hm]

/-! ## Claim C8 -/

/-- **C8.**  If the ignore-spec file exists at the root but cannot be read,
the scan fails with that error for every tree, while an absent ignore-spec
file is not an error (`readGitignore` yields `ok none`) — the two cases are
distinguished. -/
theorem c8_unreadable_gitignore_fatal (root : FSEntry) (iter : List (String × Nat)) :
    getRepoDetails .unreadable root iter = .error "open .gitignore: permission denied" ∧
    readGitignore .absent = .ok none :=
  ⟨rfl, rfl⟩

/-! ## Claim C10 -/

def wt10Tree : FSEntry := .dir "proj" true .nil

def wt10Nested : FSEntry := .dir "proj" true (.cons (.dir "sub" true .nil) .nil)

/-- **C10.**  When the scanned tree contains no files at all, the scan
still succeeds: on the concrete empty tree it returns primary language
`""`, entry point `"main."`, and empty `fileStructure` and `currentCode`;
and in general every successful scan of a file-less tree returns exactly
that result. -/
theorem c10_empty_tree :
    getRepoDetails .absent wt10Tree [] = .ok ⟨"", [], "main.", []⟩ ∧
    ∀ st root iter r, tallyRoot root = [] → IsMapEnum iter (tallyRoot root) →
      getRepoDetails st root iter = .ok r → r = ⟨"", [], "main.", []⟩ := by
  refine ⟨rfl, ?_⟩
  intro st root iter r htally henum hok
  obtain ⟨gi, hgi, hw, hpl, hep⟩ := getRepoDetails_ok st root iter r hok
  have hiter : iter = [] := by
    cases iter with
    | nil => rfl
    | cons p ps =>
      have := (henum.2.1 p (List.mem_cons_self p ps)).1
      rw [htally] at this
      cases this
  subst hiter
  have hflag := tallyRoot_nil_flagged (giMatches gi) root htally
  have hfs : r.fileStructure = [] := by
    rw [List.eq_nil_iff_forall_not_mem]
    intro p hp
    have := walkRoot_flagged _ root hw p hp
    rw [hflag] at this
    cases this
  have hcc : r.currentCode = [] := by
    have hkeys := walkRoot_keys _ root hw
    rw [hfs] at hkeys
    exact List.map_eq_nil_iff.mp hkeys
  obtain ⟨pl, fs, ep, cc⟩ := r
  simp only at hpl hep hfs hcc
  rw [hpl, hep, hfs, hcc]
  rfl

theorem c10_empty_tree_witness :
    tallyRoot wt10Nested = [] ∧
    (⟨"", [], "main.", []⟩ : ScanResult) = ⟨"", [], "main.", []⟩ :=
  ⟨rfl, c10_empty_tree.2 .absent wt10Nested [] _ rfl (by decide) rfl⟩

/-! ## Claim C4 -/

def c4Tree : FSEntry :=
  .dir "repo" true (.cons (.file "a.go" "" true) (.cons (.file "b.go" "" true)
    (.cons (.file "c.py" "" true) (.cons (.file "d.py" "" true) .nil))))

def c4Code : List (String × String) :=
  [("a.go", ""), ("b.go", ""), ("c.py", ""), ("d.py", "")]

/-- **C4, counterexample.**  Claim C4 is false on the code: over the same
filesystem state — extension counts `{.go: 2, .py: 2}`, a tie — two valid
enumeration orders of the `langs` map (Go map iteration order is
unspecified) make the selection loop return different primary languages,
`".go"` for one order and `".py"` for the other. -/
theorem c4_counterexample :
    IsMapEnum [(".go", 2), (".py", 2)] (tallyRoot c4Tree) ∧
    IsMapEnum [(".py", 2), (".go", 2)] (tallyRoot c4Tree) ∧
    getRepoDetails .absent c4Tree [(".go", 2), (".py", 2)] =
      .ok ⟨".go", ["a.go", "b.go", "c.py", "d.py"], "main.go", c4Code⟩ ∧
    getRepoDetails .absent c4Tree [(".py", 2), (".go", 2)] =
      .ok ⟨".py", ["a.go", "b.go", "c.py", "d.py"], "main.py", c4Code⟩ ∧
    (".go" : String) ≠ ".py" :=
  ⟨by decide, by decide, rfl, rfl, by decide⟩

/-- **C4, amended.**  The primary language is a key of the extension-count
map achieving the maximum count, and the selection is deterministic
whenever the maximum count is uniquely achieved: any two enumerations of
the same count map then return the same extension.  (Under a tie the
result depends on the enumeration order, per `c4_counterexample`.) -/
theorem c4_amended (exts : List String) (iter₁ iter₂ : List (String × Nat))
    (h₁ : IsMapEnum iter₁ exts) (h₂ : IsMapEnum iter₂ exts) (hne : exts ≠ []) :
    primaryLangOf iter₁ ∈ exts ∧
    (∀ e ∈ exts, exts.count e ≤ exts.count (primaryLangOf iter₁)) ∧
    ((∀ e ∈ exts, e ≠ primaryLangOf iter₁ →
        exts.count e < exts.count (primaryLangOf iter₁)) →
      primaryLangOf iter₂ = primaryLangOf iter₁) := by
  obtain ⟨hin, hmax⟩ := primaryLang_spec exts iter₁ h₁ hne
  exact ⟨hin, hmax, fun huniq => primaryLang_unique_max exts iter₂ h₂ _ hin huniq⟩

theorem c4_amended_witness :
    IsMapEnum [(".go", 2), (".md", 1)] [".go", ".go", ".md"] ∧
    IsMapEnum [(".md", 1), (".go", 2)] [".go", ".go", ".md"] ∧
    ([".go", ".go", ".md"] : List String) ≠ [] ∧
    primaryLangOf [(".go", 2), (".md", 1)] ∈ [".go", ".go", ".md"] ∧
    primaryLangOf [(".md", 1), (".go", 2)] = primaryLangOf [(".go", 2), (".md", 1)] := by
  have h := c4_amended [".go", ".go", ".md"] [(".go", 2), (".md", 1)] [(".md", 1), (".go", 2)]
    (by decide) (by decide) (by decide)
  exact ⟨by decide, by decide, by decide, h.1, h.2.2 (by decide)⟩

/-! ## Claim C6 -/

def extsC6 : List String :=
  [".go", ".go", ".go", ".go", ".go", ".md", ".md", ".json"]

/-- **C6.**  For every scan, the entry point equals `"main"` + `"."` + the
primary-language extension with its leading dot removed; and for extension
counts `{.go: 5, .md: 2, .json: 1}` every enumeration order yields primary
language `".go"` and entry point `"main.go"`. -/
theorem c6_entry_point :
    (∀ st root iter r, getRepoDetails st root iter = .ok r →
      r.entryPoint = "main." ++ trimPrefixDot r.primaryLang) ∧
    (∀ iter, IsMapEnum iter extsC6 →
      primaryLangOf iter = ".go" ∧
      "main." ++ trimPrefixDot (primaryLangOf iter) = "main.go") := by
  constructor
  · intro st root iter r hok
    obtain ⟨-, -, -, hpl, hep⟩ := getRepoDetails_ok st root iter r hok
    rw [hep, hpl]
  · intro iter henum
    have hgo : primaryLangOf iter = ".go" :=
      primaryLang_unique_max extsC6 iter henum ".go" (by decide) (by decide)
    rw [hgo]
    exact ⟨rfl, rfl⟩

theorem c6_entry_point_witness :
    IsMapEnum [(".md", 2), (".go", 5), (".json", 1)] extsC6 ∧
    primaryLangOf [(".md", 2), (".go", 5), (".json", 1)] = ".go" ∧
    "main." ++ trimPrefixDot (primaryLangOf [(".md", 2), (".go", 5), (".json", 1)]) =
      "main.go" :=
  ⟨by decide, (c6_entry_point.2 [(".md", 2), (".go", 5), (".json", 1)] (by decide)).1,
    (c6_entry_point.2 [(".md", 2), (".go", 5), (".json", 1)] (by decide)).2⟩

/-! ## Claim C3 -/

def c3Ignore : IgnoreFileState := .contents [some (fun p => p == "docs", false)]

def c3Tree : FSEntry :=
  .dir "repo" true (.cons (.file "a.go" "package main" true)
    (.cons (.dir "docs" true (.cons (.file "x.md" "" true)
      (.cons (.file "y.md" "" true) (.cons (.file "z.md" "" true) .nil))))
    (.cons (.dir ".git" true (.cons (.file "config" "" true) .nil)) .nil)))

/-- **C3, failing input.**  With `.gitignore` pattern `docs` and tree
`{a.go, docs/{x,y,z}.md, .git/config}`, the visited-file set is exactly
`["a.go"]` (extensions `[".go"]`), yet the second, unfiltered walk tallies
`[".go", ".md", ".md", ".md", ""]` — counting the three `.md` files under
the ignored `docs` directory and the extension-less file under `.git` —
so the scan's primary language comes out `".md"` (entry point `"main.md"`)
although no `.md` file was visited.  This contradicts the claim that the
tally is accumulated over exactly the visited-file set with filtering
applied once, consistently. -/
theorem c3_code_bug_eval :
    getRepoDetails c3Ignore c3Tree [(".md", 3), (".go", 1), ("", 1)] =
      .ok ⟨".md", ["a.go"], "main.md", [("a.go", "package main")]⟩ ∧
    IsMapEnum [(".md", 3), (".go", 1), ("", 1)] (tallyRoot c3Tree) ∧
    tallyRoot c3Tree = [".go", ".md", ".md", ".md", ""] ∧
    List.map fileExt ["a.go"] = [".go"] :=
  ⟨rfl, by decide, rfl, rfl⟩

/-! ## Claim C9 -/

/-- **C9.**  Serialization of the project context is deterministic with
stable key ordering and stable indentation: the serialized bytes are a
function of the `ProjectContext` value alone — representing the
`currentCode` map by any permutation of its (distinct-key) entries yields
byte-identical output. -/
theorem c9_serialization_deterministic (ctx : Context)
    (cc₁ cc₂ : List (String × String)) (hperm : cc₁.Perm cc₂)
    (hnd : (cc₁.map Prod.fst).Nodup) :
    marshalProjectContext ⟨ctx, cc₁⟩ = marshalProjectContext ⟨ctx, cc₂⟩ := by
  have h : marshalCode "  " cc₁ = marshalCode "  " cc₂ := by
    unfold marshalCode
    rw [sortByKey_perm_eq hperm hnd]
  unfold marshalProjectContext
  rw [h]

theorem c9_serialization_deterministic_witness :
    ([("b.go", "package b"), ("a.go", "package a")] : List (String × String)).Perm
      [("a.go", "package a"), ("b.go", "package b")] ∧
    marshalProjectContext ⟨⟨"proj", "desc", ["a.go", "b.go"]⟩,
        [("b.go", "package b"), ("a.go", "package a")]⟩ =
      marshalProjectContext ⟨⟨"proj", "desc", ["a.go", "b.go"]⟩,
        [("a.go", "package a"), ("b.go", "package b")]⟩ :=
  ⟨by decide, c9_serialization_deterministic ⟨"proj", "desc", ["a.go", "b.go"]⟩ _ _
    (by decide) (by decide)⟩

end DescribeRepo
